import Mathlib

/-!
# Verification of the `dxfgeom` geometry and contour-stitching core

This file is a shallow embedding of `dxfgeom.py` (the geometry model and
contour-reconstruction engine of the `nctools` repository) together with
proofs and refutations of the specification's claims about it.

Modelling conventions:

* The stitching layer (`Entity`, `fits`, `swap`, `Contour.append`,
  `Contour.prepend`, `find_contours`, the ordering and bounding-box
  helpers) operates on coordinates only through arithmetic comparisons,
  so it is embedded with exact rational coordinates (`ℚ`); this keeps
  every definition computable and decidable on concrete inputs.
* The trigonometric layer (`Arc` construction, its bounding-box
  refinement and its subdivision into segments) is embedded over `ℝ`,
  with Python's `math.cos` / `math.sin` / `math.asin` modelled by the
  exact real functions.
* Python methods that mutate `self` and return a boolean are modelled
  as functions returning a `Bool × _` pair: the boolean result together
  with the new state (the unchanged state on failure).
* Python 2 semantics are used where relevant: `int(x)` truncates toward
  zero, and `/` on integers is floor division.
-/

namespace Dxfgeom

/-- The two concrete entity classes of the source (`Line` and `Arc`);
`find_contours` distinguishes them with `isinstance`. -/
inductive Kind where
  | line : Kind
  | arc : Kind
deriving DecidableEq, Repr

/-- Embedding of the Python class `Entity`: start point `(x1, y1)`,
end point `(x2, y2)`, bounding box `(xmin, ymin, xmax, ymax)`, and the
endpoints-swapped indicator `sw`.  The `kind` field records which
concrete class the object belongs to. -/
structure Entity where
  kind : Kind
  x1 : ℚ
  y1 : ℚ
  x2 : ℚ
  y2 : ℚ
  xmin : ℚ
  ymin : ℚ
  xmax : ℚ
  ymax : ℚ
  sw : Bool
deriving DecidableEq, Repr

/-- `Entity.delta`: the class attribute `delta = 0.005`, the maximum
distance in x and y direction between endpoints considered
coincident. -/
def delta : ℚ := 0.005

/-- `Entity.__init__(self, x1, y1, x2, y2)`: stores the endpoints, the
bounding box `(min(x1,x2), min(y1,y2), max(x1,x2), max(y1,y2))`, and
`sw = False`. -/
def mkEntity (k : Kind) (x1 y1 x2 y2 : ℚ) : Entity :=
  { kind := k
    x1 := x1, y1 := y1, x2 := x2, y2 := y2
    xmin := min x1 x2, ymin := min y1 y2
    xmax := max x1 x2, ymax := max y1 y2
    sw := false }

/-- `math.fabs` on exact rationals. -/
def fabs (x : ℚ) : ℚ := if x < 0 then -x else x

/-- `fabs` agrees with the absolute value. -/
theorem fabs_eq_abs (x : ℚ) : fabs x = |x| := by
  unfold fabs
  rcases le_or_lt 0 x with h | h
  · rw [if_neg (not_lt.mpr h), abs_of_nonneg h]
  · rw [if_pos h, abs_of_neg h]

/-- `Entity.fits(self, index, other)`: checks whether `other` fits onto
end `index` (1 or 2) of `self`.  Returns 0 if it does not fit,
otherwise 1 or 2 indicating the new free end of `other`.  A direct
transcription of the `if index == 1 / elif index == 2` ladder of the
source (any other index falls through to `return 0`). -/
def Entity.fits (self : Entity) (index : ℕ) (other : Entity) : ℕ :=
  if index = 1 then
    if fabs (self.x1 - other.x1) < delta ∧ fabs (self.y1 - other.y1) < delta then 2
    else if fabs (self.x1 - other.x2) < delta ∧ fabs (self.y1 - other.y2) < delta then 1
    else 0
  else if index = 2 then
    if fabs (self.x2 - other.x1) < delta ∧ fabs (self.y2 - other.y1) < delta then 2
    else if fabs (self.x2 - other.x2) < delta ∧ fabs (self.y2 - other.y2) < delta then 1
    else 0
  else 0

/-- `Entity.getbb(self)`: the bounding box as a tuple
`(xmin, ymin, xmax, ymax)`. -/
def Entity.getbb (self : Entity) : ℚ × ℚ × ℚ × ℚ :=
  (self.xmin, self.ymin, self.xmax, self.ymax)

/-- `Entity.swap(self)`: swaps `(x1, y1)` and `(x2, y2)` and toggles
the `sw` flag; every other field is untouched. -/
def Entity.swap (self : Entity) : Entity :=
  { self with x1 := self.x2, x2 := self.x1, y1 := self.y2, y2 := self.y1,
              sw := !self.sw }

/-- `Entity.__lt__(self, other)` as a boolean: the Python method
returns `True`, `False`, or falls through returning `None`; `None` is
falsy, so its truth value is captured by this `Bool`. -/
def Entity.lt (self other : Entity) : Bool :=
  if self.xmin = other.xmin then decide (self.ymin < other.ymin)
  else decide (self.xmin < other.xmin)

/-- `Entity.__eq__(self, other)`: equality of the `(xmin, ymin)`
corners of the bounding boxes. -/
def Entity.eqb (self other : Entity) : Bool :=
  decide (self.xmin = other.xmin ∧ self.ymin = other.ymin)

/-- `merge_bb(a, b)`: the coordinate-wise min/max union of two
bounding boxes. -/
def merge_bb (a b : ℚ × ℚ × ℚ × ℚ) : ℚ × ℚ × ℚ × ℚ :=
  (min a.1 b.1, min a.2.1 b.2.1, max a.2.2.1 b.2.2.1, max a.2.2.2 b.2.2.2)

/-- Embedding of the Python class `Contour`: the `Entity` state
inherited from `Entity.__init__` plus the member list `ent` and the
member count `nument`. -/
structure Contour where
  x1 : ℚ
  y1 : ℚ
  x2 : ℚ
  y2 : ℚ
  xmin : ℚ
  ymin : ℚ
  xmax : ℚ
  ymax : ℚ
  sw : Bool
  ent : List Entity
  nument : ℕ
deriving DecidableEq, Repr

/-- `Contour.__init__(self, ent)`: calls `Entity.__init__` with the
seed entity's endpoints (so the initial bounding box is the endpoint
box, not the seed's own `getbb`), and stores `ent = [ent]`,
`nument = 1`. -/
def mkContour (e : Entity) : Contour :=
  { x1 := e.x1, y1 := e.y1, x2 := e.x2, y2 := e.y2
    xmin := min e.x1 e.x2, ymin := min e.y1 e.y2
    xmax := max e.x1 e.x2, ymax := max e.y1 e.y2
    sw := false
    ent := [e], nument := 1 }

/-- `Contour.getbb` (inherited from `Entity`). -/
def Contour.getbb (self : Contour) : ℚ × ℚ × ℚ × ℚ :=
  (self.xmin, self.ymin, self.xmax, self.ymax)

/-- `Contour.append(self, ent)`: tests `ent` against end 2 of the last
member; on a fit the member is appended (swapped first when the
returned free end is 1), the bounding box becomes
`merge_bb(self.getbb(), ent.getbb())` and the contour's end point
becomes the (possibly swapped) member's end point.  The source mutates
`self` and `ent` and returns a boolean; here the boolean is paired
with the new contour, the appended member carrying the swap that the
source applies in place. -/
def Contour.append (self : Contour) (ent : Entity) : Bool × Contour :=
  match self.ent.getLast? with
  | none => (false, self)
  | some last =>
    let newfree := last.fits 2 ent
    if newfree = 0 then (false, self)
    else
      let ent' := if newfree = 1 then ent.swap else ent
      let bb := merge_bb self.getbb ent.getbb
      (true, { self with
                 ent := self.ent ++ [ent']
                 nument := self.nument + 1
                 xmin := bb.1, ymin := bb.2.1, xmax := bb.2.2.1, ymax := bb.2.2.2
                 x2 := ent'.x2, y2 := ent'.y2 })

/-- `Contour.prepend(self, ent)`: the mirror of `append` against end 1
of the first member; the member is swapped when the returned free end
is 2, inserted at the front, and the contour's start point becomes the
(possibly swapped) member's start point. -/
def Contour.prepend (self : Contour) (ent : Entity) : Bool × Contour :=
  match self.ent.head? with
  | none => (false, self)
  | some first =>
    let newfree := first.fits 1 ent
    if newfree = 0 then (false, self)
    else
      let ent' := if newfree = 2 then ent.swap else ent
      let bb := merge_bb self.getbb ent.getbb
      (true, { self with
                 ent := ent' :: self.ent
                 nument := self.nument + 1
                 xmin := bb.1, ymin := bb.2.1, xmax := bb.2.2.1, ymax := bb.2.2.2
                 x1 := ent'.x1, y1 := ent'.y1 })

/-- `Entity.__lt__` as inherited by `Contour` (same method body, on
the contour's own `xmin`/`ymin`). -/
def Contour.lt (self other : Contour) : Bool :=
  if self.xmin = other.xmin then decide (self.ymin < other.ymin)
  else decide (self.xmin < other.xmin)

/-- `Entity.__eq__` as inherited by `Contour`. -/
def Contour.eqb (self other : Contour) : Bool :=
  decide (self.xmin = other.xmin ∧ self.ymin = other.ymin)

/-- `Entity.swap` as inherited by `Contour`: only the endpoints and
the `sw` flag change; the member list and `nument` are untouched. -/
def Contour.swap (self : Contour) : Contour :=
  { self with x1 := self.x2, x2 := self.x1, y1 := self.y2, y2 := self.y1,
              sw := !self.sw }

/-- `cn.append(elements[n]) or cn.prepend(elements[n])`: Python's
short-circuiting `or`; `prepend` is attempted only when `append`
failed (in which case the contour is unchanged). -/
def tryJoin (cn : Contour) (e : Entity) : Bool × Contour :=
  let r := cn.append e
  if r.1 then r else cn.prepend e

/-- Concrete test line from (0,0) to (1,0). -/
def entA : Entity := mkEntity Kind.line 0 0 1 0

/-- Concrete test line from (1,0) to (2,0): its start coincides with
`entA`'s end. -/
def entB : Entity := mkEntity Kind.line 1 0 2 0

/-- Concrete test line from (1,0) to (1,1): a branch hanging off the
junction point (1,0) shared by `entA` and `entB` (a T-junction). -/
def entC : Entity := mkEntity Kind.line 1 0 1 1

/-- Concrete test line from (2,0) to (1,0): `entB` reversed, so its
*end* point is the junction with `entA`'s end. -/
def entD : Entity := mkEntity Kind.line 2 0 1 0

/-- Concrete test line far away from all the others. -/
def entE : Entity := mkEntity Kind.line 50 50 60 60

/-- The contour that stitching `entA` then `entB` produces: members
`[entA, entB]`, endpoints (0,0)→(2,0), bounding box (0,0,2,0). -/
def cnAB : Contour :=
  { x1 := 0, y1 := 0, x2 := 2, y2 := 0
    xmin := 0, ymin := 0, xmax := 2, ymax := 0
    sw := false
    ent := [entA, entB], nument := 2 }

/-- One pass of the inner scan of `find_contours`:
`n = 0; while n < len(elements): if cn.append(elements[n]) or
cn.prepend(elements[n]): del elements[n] else: n += 1`.
The scan visits the working list left to right, consuming every
element that joins and keeping (in order) every element that does
not.  Returns the grown contour and the remaining elements. -/
def scan (cn : Contour) : List Entity → Contour × List Entity
  | [] => (cn, [])
  | e :: es =>
    let r := tryJoin cn e
    if r.1 then scan r.2 es
    else
      let rest := scan r.2 es
      (rest.1, e :: rest.2)

/-- Case analysis on `Contour.append`: it either fails leaving the
contour unchanged, or succeeds, increments `nument`, and appends the
candidate (possibly swapped) to the member list. -/
theorem append_cases (cn : Contour) (e : Entity) :
    ((cn.append e).1 = false ∧ (cn.append e).2 = cn) ∨
    ((cn.append e).1 = true ∧ (cn.append e).2.nument = cn.nument + 1 ∧
      ((cn.append e).2.ent = cn.ent ++ [e] ∨ (cn.append e).2.ent = cn.ent ++ [e.swap])) := by
  unfold Contour.append
  cases hl : cn.ent.getLast? with
  | none => simp
  | some last =>
    by_cases h0 : last.fits 2 e = 0
    · simp [h0]
    · by_cases h1 : last.fits 2 e = 1 <;> simp [h0, h1]

/-- Case analysis on `Contour.prepend`, mirror of `append_cases`. -/
theorem prepend_cases (cn : Contour) (e : Entity) :
    ((cn.prepend e).1 = false ∧ (cn.prepend e).2 = cn) ∨
    ((cn.prepend e).1 = true ∧ (cn.prepend e).2.nument = cn.nument + 1 ∧
      ((cn.prepend e).2.ent = e :: cn.ent ∨ (cn.prepend e).2.ent = e.swap :: cn.ent)) := by
  unfold Contour.prepend
  cases hl : cn.ent.head? with
  | none => simp
  | some first =>
    by_cases h0 : first.fits 1 e = 0
    · simp [h0]
    · by_cases h2 : first.fits 1 e = 2 <;> simp [h0, h2]

/-- When `append` succeeds, `prepend` is not attempted. -/
theorem tryJoin_eq_append {cn : Contour} {e : Entity}
    (h : (cn.append e).1 = true) : tryJoin cn e = cn.append e := by
  simp [tryJoin, h]

/-- When `append` fails (leaving the contour unchanged), `tryJoin`
falls through to `prepend`. -/
theorem tryJoin_eq_prepend {cn : Contour} {e : Entity}
    (h : (cn.append e).1 = false) : tryJoin cn e = cn.prepend e := by
  simp [tryJoin, h]

/-- Case analysis on `tryJoin`: failure leaves the contour unchanged;
success increments `nument` and adds the candidate (possibly swapped)
at one end of the member list. -/
theorem tryJoin_cases (cn : Contour) (e : Entity) :
    ((tryJoin cn e).1 = false ∧ (tryJoin cn e).2 = cn) ∨
    ((tryJoin cn e).1 = true ∧ (tryJoin cn e).2.nument = cn.nument + 1 ∧
      ((tryJoin cn e).2.ent = cn.ent ++ [e] ∨ (tryJoin cn e).2.ent = cn.ent ++ [e.swap] ∨
       (tryJoin cn e).2.ent = e :: cn.ent ∨ (tryJoin cn e).2.ent = e.swap :: cn.ent)) := by
  rcases append_cases cn e with ⟨hf, _⟩ | ⟨ht, hn, he⟩
  · rw [tryJoin_eq_prepend hf]
    rcases prepend_cases cn e with ⟨hf', hcn'⟩ | ⟨ht', hn', he'⟩
    · exact Or.inl ⟨hf', hcn'⟩
    · refine Or.inr ⟨ht', hn', ?_⟩
      rcases he' with h | h
      · exact Or.inr (Or.inr (Or.inl h))
      · exact Or.inr (Or.inr (Or.inr h))
  · rw [tryJoin_eq_append ht]
    refine Or.inr ⟨ht, hn, ?_⟩
    rcases he with h | h
    · exact Or.inl h
    · exact Or.inr (Or.inl h)

/-- A scan never lengthens the working list. -/
theorem scan_length_le (cn : Contour) (els : List Entity) :
    (scan cn els).2.length ≤ els.length := by
  induction els generalizing cn with
  | nil => simp [scan]
  | cons e es ih =>
    rw [scan]
    rcases tryJoin_cases cn e with ⟨hf, _⟩ | ⟨ht, _, _⟩
    · simp only [hf, Bool.false_eq_true, if_false, List.length_cons]
      exact Nat.succ_le_succ (ih _)
    · simp only [ht, if_true, List.length_cons]
      exact Nat.le_succ_of_le (ih _)

/-- Each element a scan consumes increments `nument` by one:
`nument + length` of the (contour, working list) pair is invariant. -/
theorem scan_nument_add (cn : Contour) (els : List Entity) :
    (scan cn els).1.nument + (scan cn els).2.length =
      cn.nument + els.length := by
  induction els generalizing cn with
  | nil => simp [scan]
  | cons e es ih =>
    rw [scan]
    rcases tryJoin_cases cn e with ⟨hf, hcn⟩ | ⟨ht, hn, _⟩
    · simp only [hf, Bool.false_eq_true, if_false, List.length_cons, hcn]
      have := ih cn
      omega
    · simp only [ht, if_true, List.length_cons]
      have := ih (tryJoin cn e).2
      omega

/-- A scan never decreases `nument`. -/
theorem scan_nument_le (cn : Contour) (els : List Entity) :
    cn.nument ≤ (scan cn els).1.nument := by
  have h1 := scan_nument_add cn els
  have h2 := scan_length_le cn els
  omega

/-- A scan that leaves `nument` unchanged joined nothing: it returns
the contour and the working list exactly as given. -/
theorem scan_eq_self (cn : Contour) (els : List Entity)
    (h : (scan cn els).1.nument = cn.nument) : scan cn els = (cn, els) := by
  induction els generalizing cn with
  | nil => simp [scan]
  | cons e es ih =>
    rw [scan] at h ⊢
    rcases tryJoin_cases cn e with ⟨hf, hcn⟩ | ⟨ht, hn, _⟩
    · simp only [hf, Bool.false_eq_true, if_false, hcn] at h ⊢
      have := ih cn h
      rw [this]
    · exfalso
      simp only [ht, if_true] at h
      have h1 := scan_nument_le (tryJoin cn e).2 es
      omega

/-- The inner fixpoint loop of `find_contours`:
`while True: (scan); if cn.nument == oldlen: break; oldlen = cn.nument`
— rescan the working list until one full scan joins nothing. -/
def grow (cn : Contour) (els : List Entity) : Contour × List Entity :=
  let r := scan cn els
  if h : r.1.nument = cn.nument then r
  else grow r.1 r.2
termination_by els.length
decreasing_by
  have h1 := scan_nument_add cn els
  have h2 := scan_length_le cn els
  simp only [r] at h ⊢
  omega

/-- `grow` never lengthens the working list. -/
theorem grow_length_le (cn : Contour) (els : List Entity) :
    (grow cn els).2.length ≤ els.length := by
  rw [grow]
  split
  · exact scan_length_le cn els
  · have h1 := scan_length_le cn els
    have h2 := grow_length_le (scan cn els).1 (scan cn els).2
    omega
termination_by els.length
decreasing_by
  have h1 := scan_nument_add cn els
  have h2 := scan_length_le cn els
  rename_i h
  omega

/-- `grow` never decreases `nument`. -/
theorem grow_nument_le (cn : Contour) (els : List Entity) :
    cn.nument ≤ (grow cn els).1.nument := by
  rw [grow]
  split
  · exact scan_nument_le cn els
  · have h1 := scan_nument_le cn els
    have h2 := grow_nument_le (scan cn els).1 (scan cn els).2
    omega
termination_by els.length
decreasing_by
  have h1 := scan_nument_add cn els
  have h2 := scan_length_le cn els
  rename_i h
  omega

/-- A `grow` that leaves `nument` unchanged returns its arguments
exactly: the very first scan already joined nothing. -/
theorem grow_eq_self (cn : Contour) (els : List Entity)
    (h : (grow cn els).1.nument = cn.nument) : grow cn els = (cn, els) := by
  by_cases heq : (scan cn els).1.nument = cn.nument
  · rw [grow, dif_pos heq]
    exact scan_eq_self cn els heq
  · exfalso
    rw [grow, dif_neg heq] at h
    have h1 := scan_nument_le cn els
    have h2 := grow_nument_le (scan cn els).1 (scan cn els).2
    omega

/-- The outer loop of `find_contours` over the merged working list
`elements = lol[:] + loa[:]`: pop the first element, seed a contour
with it, grow the contour to its fixpoint, then either emit the
contour (if it has more than one member) or put the seed on the
leftover list of its class. -/
def fcLoop (els : List Entity) : List Contour × List Entity × List Entity :=
  match els with
  | [] => ([], [], [])
  | first :: rest =>
    let g := grow (mkContour first) rest
    let r := fcLoop g.2
    if g.1.nument > 1 then (g.1 :: r.1, r.2.1, r.2.2)
    else if first.kind = Kind.line then (r.1, first :: r.2.1, r.2.2)
    else (r.1, r.2.1, first :: r.2.2)
termination_by els.length
decreasing_by
  simp only [List.length_cons]
  exact Nat.lt_succ_of_le (grow_length_le _ _)

/-- `find_contours(lol, loa)`: returns `(loc, remlines, remarcs)` —
the contours found in the concatenated working list and the remaining
single lines and arcs. -/
def find_contours (lol loa : List Entity) :
    List Contour × List Entity × List Entity :=
  fcLoop (lol ++ loa)

/-- The orientation-canonical form of an entity: the member stored in
a contour is the input object with its endpoints possibly swapped in
place; `canon` undoes a recorded swap, so an input and its in-contour
version have the same canonical form. -/
def canon (e : Entity) : Entity := if e.sw then e.swap else e

/-- `swap` is an involution. -/
theorem swap_swap (e : Entity) : e.swap.swap = e := by
  cases e
  simp [Entity.swap]

/-- `canon` identifies an entity with its swapped version. -/
theorem canon_swap (e : Entity) : canon e.swap = canon e := by
  unfold canon
  have hsw' : e.swap.sw = !e.sw := rfl
  rw [hsw']
  cases hsw : e.sw <;> simp [swap_swap]

/-- All member entities of a list of contours, in order. -/
def members : List Contour → List Entity
  | [] => []
  | cn :: l => cn.ent ++ members l

/-- A successful `tryJoin` adds exactly the candidate (up to the
in-place swap) to the member multiset. -/
theorem tryJoin_perm {cn : Contour} {e : Entity}
    (h : (tryJoin cn e).1 = true) :
    ((tryJoin cn e).2.ent.map canon).Perm (canon e :: cn.ent.map canon) := by
  rcases tryJoin_cases cn e with ⟨hf, _⟩ | ⟨_, _, he⟩
  · rw [h] at hf; exact absurd hf (by simp)
  · rcases he with h1 | h1 | h1 | h1 <;> rw [h1] <;>
      simp only [List.map_append, List.map_cons, List.map_nil, canon_swap]
    · exact List.perm_middle.trans (by simp)
    · exact List.perm_middle.trans (by simp)
    · exact List.Perm.refl _
    · exact List.Perm.refl _

/-- The scan invariant for the partition property: the multiset of
canonical members plus the canonical working list is preserved. -/
theorem scan_perm (cn : Contour) (els : List Entity) :
    ((scan cn els).1.ent.map canon ++ (scan cn els).2.map canon).Perm
      (cn.ent.map canon ++ els.map canon) := by
  induction els generalizing cn with
  | nil => simp [scan]
  | cons e es ih =>
    rw [scan]
    rcases tryJoin_cases cn e with ⟨hf, hcn⟩ | ⟨ht, _, _⟩
    · simp only [hf, Bool.false_eq_true, if_false, hcn, List.map_cons]
      exact (List.perm_middle.trans ((ih cn).cons _)).trans List.perm_middle.symm
    · simp only [ht, if_true, List.map_cons]
      exact ((ih _).trans
        ((tryJoin_perm ht).append_right _)).trans List.perm_middle.symm

/-- The `grow` fixpoint preserves the same multiset invariant. -/
theorem grow_perm (cn : Contour) (els : List Entity) :
    ((grow cn els).1.ent.map canon ++ (grow cn els).2.map canon).Perm
      (cn.ent.map canon ++ els.map canon) := by
  by_cases heq : (scan cn els).1.nument = cn.nument
  · rw [grow, dif_pos heq]
    exact scan_perm cn els
  · rw [grow, dif_neg heq]
    exact (grow_perm (scan cn els).1 (scan cn els).2).trans (scan_perm cn els)
termination_by els.length
decreasing_by
  have h1 := scan_nument_add cn els
  have h2 := scan_length_le cn els
  omega

/-- The outer loop preserves the multiset of canonical entities: every
input appears exactly once among the contour members and the two
leftover lists. -/
theorem fcLoop_perm (els : List Entity) :
    ((members (fcLoop els).1 ++ (fcLoop els).2.1 ++ (fcLoop els).2.2).map
        canon).Perm (els.map canon) := by
  match els with
  | [] => simp [fcLoop, members]
  | first :: rest =>
    rw [fcLoop]
    have hg := grow_perm (mkContour first) rest
    have hme : (mkContour first).ent = [first] := rfl
    rw [hme] at hg
    simp only [List.map_cons, List.map_nil, List.cons_append, List.nil_append,
      List.singleton_append] at hg
    by_cases hgt : (grow (mkContour first) rest).1.nument > 1
    · have hrec := fcLoop_perm (grow (mkContour first) rest).2
      simp only [hgt, if_true, members, List.map_append, List.map_cons,
        List.append_assoc]
      refine ((List.Perm.append_left _ ?_).trans hg)
      simpa [List.map_append, List.append_assoc] using hrec
    · have h1 : (mkContour first).nument ≤ (grow (mkContour first) rest).1.nument :=
        grow_nument_le _ _
      have hmk : (mkContour first).nument = 1 := rfl
      have hone : (grow (mkContour first) rest).1.nument = 1 := by omega
      have hid := grow_eq_self (mkContour first) rest (by rw [hone, hmk])
      have hg1 : (grow (mkContour first) rest).1 = mkContour first := by rw [hid]
      have hg2 : (grow (mkContour first) rest).2 = rest := by rw [hid]
      rw [hg1, hg2, hmk]
      rw [if_neg (by omega : ¬(1 > 1))]
      have hrec := fcLoop_perm rest
      have hrec' : ((members (fcLoop rest).1).map canon ++
          (fcLoop rest).2.1.map canon ++ (fcLoop rest).2.2.map canon).Perm
          (rest.map canon) := by
        simpa [List.map_append] using hrec
      by_cases hk : first.kind = Kind.line
      · rw [if_pos hk]
        simp only [List.map_append, List.map_cons]
        exact (List.perm_middle.append_right _).trans (hrec'.cons (canon first))
      · rw [if_neg hk]
        simp only [List.map_append, List.map_cons]
        exact List.perm_middle.trans (hrec'.cons (canon first))
termination_by els.length
decreasing_by
  all_goals simp only [List.length_cons]
  all_goals first
    | exact Nat.lt_succ_of_le (grow_length_le _ _)
    | exact Nat.lt_succ_of_le (Nat.le_refl _)

/-- The leftover lists are homogeneous: `remlines` holds only `Line`
objects and `remarcs` only `Arc` objects. -/
theorem fcLoop_kinds (els : List Entity) :
    ((fcLoop els).2.1.all fun e => decide (e.kind = Kind.line)) ∧
    ((fcLoop els).2.2.all fun e => decide (e.kind = Kind.arc)) := by
  match els with
  | [] => simp [fcLoop]
  | first :: rest =>
    rw [fcLoop]
    by_cases hgt : (grow (mkContour first) rest).1.nument > 1
    · have hrec := fcLoop_kinds (grow (mkContour first) rest).2
      rw [if_pos hgt]
      exact hrec
    · have h1 : (mkContour first).nument ≤ (grow (mkContour first) rest).1.nument :=
        grow_nument_le _ _
      have hmk : (mkContour first).nument = 1 := rfl
      have hone : (grow (mkContour first) rest).1.nument = 1 := by omega
      have hid := grow_eq_self (mkContour first) rest (by rw [hone, hmk])
      have hg1 : (grow (mkContour first) rest).1 = mkContour first := by rw [hid]
      have hg2 : (grow (mkContour first) rest).2 = rest := by rw [hid]
      rw [hg1, hg2, hmk, if_neg (by omega : ¬(1 > 1))]
      have hrec := fcLoop_kinds rest
      by_cases hk : first.kind = Kind.line
      · rw [if_pos hk]
        refine ⟨?_, hrec.2⟩
        simp only [List.all_cons, Bool.and_eq_true, decide_eq_true_eq]
        exact ⟨hk, hrec.1⟩
      · rw [if_neg hk]
        have hk2 : first.kind = Kind.arc := by
          cases h : first.kind
          · exact absurd h hk
          · rfl
        refine ⟨hrec.1, ?_⟩
        simp only [List.all_cons, Bool.and_eq_true, decide_eq_true_eq]
        exact ⟨hk2, hrec.2⟩
termination_by els.length
decreasing_by
  all_goals simp only [List.length_cons]
  all_goals first
    | exact Nat.lt_succ_of_le (grow_length_le _ _)
    | exact Nat.lt_succ_of_le (Nat.le_refl _)

/-- Full specification of a successful `append`: the last member
fitted, the candidate was appended (swapped exactly when the free end
was 1), `nument` grew by one, and the bounding box is the `merge_bb`
union. -/
theorem append_success (cn : Contour) (e : Entity) :
    (cn.append e).1 = true →
    ∃ last, cn.ent.getLast? = some last ∧ last.fits 2 e ≠ 0 ∧
      (cn.append e).2.ent =
        cn.ent ++ [if last.fits 2 e = 1 then e.swap else e] ∧
      (cn.append e).2.nument = cn.nument + 1 ∧
      (cn.append e).2.getbb = merge_bb cn.getbb e.getbb := by
  unfold Contour.append
  cases hl : cn.ent.getLast? with
  | none => intro h; simp at h
  | some last =>
    by_cases h0 : last.fits 2 e = 0
    · intro h; simp [h0] at h
    · intro _
      refine ⟨last, rfl, h0, ?_, ?_, ?_⟩ <;>
        simp [h0, Contour.getbb, Entity.getbb, merge_bb]

/-- Full specification of a successful `prepend`, mirror of
`append_success`: the candidate is swapped exactly when the free end
was 2 and is inserted at the front. -/
theorem prepend_success (cn : Contour) (e : Entity) :
    (cn.prepend e).1 = true →
    ∃ first, cn.ent.head? = some first ∧ first.fits 1 e ≠ 0 ∧
      (cn.prepend e).2.ent =
        (if first.fits 1 e = 2 then e.swap else e) :: cn.ent ∧
      (cn.prepend e).2.nument = cn.nument + 1 ∧
      (cn.prepend e).2.getbb = merge_bb cn.getbb e.getbb := by
  unfold Contour.prepend
  cases hl : cn.ent.head? with
  | none => intro h; simp at h
  | some first =>
    by_cases h0 : first.fits 1 e = 0
    · intro h; simp [h0] at h
    · intro _
      refine ⟨first, rfl, h0, ?_, ?_, ?_⟩ <;>
        simp [h0, Contour.getbb, Entity.getbb, merge_bb]

/-- The undirected δ-coincidence relation induced by `fits`: some end
of `a` is δ-coincident with some end of `b`.  This is the adjacency
relation of the connectivity claim. -/
def fitsRel (a b : Entity) : Prop := a.fits 1 b ≠ 0 ∨ a.fits 2 b ≠ 0

instance (a b : Entity) : Decidable (fitsRel a b) := by
  unfold fitsRel
  infer_instance

/-- `fits` at end 1 succeeds iff the reference's start point is
δ-coincident with one of the candidate's endpoints. -/
theorem fits_one_ne_zero_iff (a b : Entity) :
    a.fits 1 b ≠ 0 ↔
      ((|a.x1 - b.x1| < delta ∧ |a.y1 - b.y1| < delta) ∨
       (|a.x1 - b.x2| < delta ∧ |a.y1 - b.y2| < delta)) := by
  unfold Entity.fits
  simp only [fabs_eq_abs]
  split_ifs <;> simp_all

/-- `fits` at end 2 succeeds iff the reference's end point is
δ-coincident with one of the candidate's endpoints. -/
theorem fits_two_ne_zero_iff (a b : Entity) :
    a.fits 2 b ≠ 0 ↔
      ((|a.x2 - b.x1| < delta ∧ |a.y2 - b.y1| < delta) ∨
       (|a.x2 - b.x2| < delta ∧ |a.y2 - b.y2| < delta)) := by
  unfold Entity.fits
  simp only [fabs_eq_abs]
  split_ifs <;> simp_all

/-- `fitsRel` characterised by the four endpoint coincidences. -/
theorem fitsRel_iff (a b : Entity) :
    fitsRel a b ↔
      ((|a.x1 - b.x1| < delta ∧ |a.y1 - b.y1| < delta) ∨
       (|a.x1 - b.x2| < delta ∧ |a.y1 - b.y2| < delta) ∨
       (|a.x2 - b.x1| < delta ∧ |a.y2 - b.y1| < delta) ∨
       (|a.x2 - b.x2| < delta ∧ |a.y2 - b.y2| < delta)) := by
  unfold fitsRel
  rw [fits_one_ne_zero_iff, fits_two_ne_zero_iff]
  exact or_assoc

/-- δ-coincidence of endpoints is symmetric. -/
theorem fitsRel_symm {a b : Entity} (h : fitsRel a b) : fitsRel b a := by
  rw [fitsRel_iff] at h ⊢
  simp only [abs_sub_comm] at h ⊢
  tauto

/-- Swapping the candidate's endpoints does not affect δ-coincidence. -/
theorem fitsRel_swap_right (a b : Entity) : fitsRel a b.swap ↔ fitsRel a b := by
  rw [fitsRel_iff, fitsRel_iff]
  have h1 : b.swap.x1 = b.x2 := rfl
  have h2 : b.swap.x2 = b.x1 := rfl
  have h3 : b.swap.y1 = b.y2 := rfl
  have h4 : b.swap.y2 = b.y1 := rfl
  rw [h1, h2, h3, h4]
  constructor
  · rintro (h | h | h | h)
    · exact Or.inr (Or.inl h)
    · exact Or.inl h
    · exact Or.inr (Or.inr (Or.inr h))
    · exact Or.inr (Or.inr (Or.inl h))
  · rintro (h | h | h | h)
    · exact Or.inr (Or.inl h)
    · exact Or.inl h
    · exact Or.inr (Or.inr (Or.inr h))
    · exact Or.inr (Or.inr (Or.inl h))

/-- Swapping the reference's endpoints does not affect δ-coincidence. -/
theorem fitsRel_swap_left (a b : Entity) : fitsRel a.swap b ↔ fitsRel a b := by
  rw [fitsRel_iff, fitsRel_iff]
  have h1 : a.swap.x1 = a.x2 := rfl
  have h2 : a.swap.x2 = a.x1 := rfl
  have h3 : a.swap.y1 = a.y2 := rfl
  have h4 : a.swap.y2 = a.y1 := rfl
  rw [h1, h2, h3, h4]
  constructor
  · rintro (h | h | h | h)
    · exact Or.inr (Or.inr (Or.inl h))
    · exact Or.inr (Or.inr (Or.inr h))
    · exact Or.inl h
    · exact Or.inr (Or.inl h)
  · rintro (h | h | h | h)
    · exact Or.inr (Or.inr (Or.inl h))
    · exact Or.inr (Or.inr (Or.inr h))
    · exact Or.inl h
    · exact Or.inr (Or.inl h)

/-- A successful `append` keeps consecutive members δ-coincident. -/
theorem append_chain {cn : Contour} {e : Entity}
    (h : (cn.append e).1 = true) (hch : List.Chain' fitsRel cn.ent) :
    List.Chain' fitsRel (cn.append e).2.ent := by
  obtain ⟨last, hl, h0, hent, -, -⟩ := append_success cn e h
  rw [hent, List.chain'_append]
  refine ⟨hch, List.chain'_singleton _, ?_⟩
  intro x hx y hy
  rw [hl] at hx
  simp only [Option.mem_def, Option.some_inj] at hx
  simp only [List.head?_cons, Option.mem_def, Option.some_inj] at hy
  subst hx
  subst hy
  have hrel : fitsRel last e := Or.inr h0
  split_ifs
  · exact (fitsRel_swap_right last e).mpr hrel
  · exact hrel

/-- A successful `prepend` keeps consecutive members δ-coincident. -/
theorem prepend_chain {cn : Contour} {e : Entity}
    (h : (cn.prepend e).1 = true) (hch : List.Chain' fitsRel cn.ent) :
    List.Chain' fitsRel (cn.prepend e).2.ent := by
  obtain ⟨first, hf, h0, hent, -, -⟩ := prepend_success cn e h
  rw [hent, List.chain'_cons']
  refine ⟨?_, hch⟩
  intro y hy
  rw [hf] at hy
  simp only [Option.mem_def, Option.some_inj] at hy
  subst hy
  have hrel : fitsRel e first := fitsRel_symm (Or.inl h0)
  split_ifs
  · exact (fitsRel_swap_left e first).mpr hrel
  · exact hrel

/-- `tryJoin` preserves the consecutive-coincidence invariant. -/
theorem tryJoin_chain {cn : Contour} {e : Entity}
    (h : (tryJoin cn e).1 = true) (hch : List.Chain' fitsRel cn.ent) :
    List.Chain' fitsRel (tryJoin cn e).2.ent := by
  cases ha : (cn.append e).1 with
  | true => rw [tryJoin_eq_append ha]; exact append_chain ha hch
  | false =>
    rw [tryJoin_eq_prepend ha] at h ⊢
    exact prepend_chain h hch

/-- A scan preserves the consecutive-coincidence invariant. -/
theorem scan_chain (cn : Contour) (els : List Entity)
    (hch : List.Chain' fitsRel cn.ent) :
    List.Chain' fitsRel (scan cn els).1.ent := by
  induction els generalizing cn with
  | nil => simpa [scan] using hch
  | cons e es ih =>
    rw [scan]
    rcases tryJoin_cases cn e with ⟨hf, hcn⟩ | ⟨ht, _, _⟩
    · simp only [hf, Bool.false_eq_true, if_false, hcn]
      exact ih cn hch
    · simp only [ht, if_true]
      exact ih _ (tryJoin_chain ht hch)

/-- The `grow` fixpoint preserves the consecutive-coincidence
invariant. -/
theorem grow_chain (cn : Contour) (els : List Entity)
    (hch : List.Chain' fitsRel cn.ent) :
    List.Chain' fitsRel (grow cn els).1.ent := by
  by_cases heq : (scan cn els).1.nument = cn.nument
  · rw [grow, dif_pos heq]
    exact scan_chain cn els hch
  · rw [grow, dif_neg heq]
    exact grow_chain (scan cn els).1 (scan cn els).2 (scan_chain cn els hch)
termination_by els.length
decreasing_by
  have h1 := scan_nument_add cn els
  have h2 := scan_length_le cn els
  omega

/-- Every contour emitted by the outer loop has δ-coincident
consecutive members. -/
theorem fcLoop_chain (els : List Entity) :
    ∀ cn ∈ (fcLoop els).1, List.Chain' fitsRel cn.ent := by
  match els with
  | [] => intro cn h; simp [fcLoop] at h
  | first :: rest =>
    rw [fcLoop]
    by_cases hgt : (grow (mkContour first) rest).1.nument > 1
    · rw [if_pos hgt]
      intro cn hcn
      rcases List.mem_cons.mp hcn with rfl | hcn2
      · have hme : (mkContour first).ent = [first] := rfl
        refine grow_chain (mkContour first) rest ?_
        rw [hme]
        exact List.chain'_singleton first
      · exact fcLoop_chain (grow (mkContour first) rest).2 cn hcn2
    · have h1 : (mkContour first).nument ≤ (grow (mkContour first) rest).1.nument :=
        grow_nument_le _ _
      have hmk : (mkContour first).nument = 1 := rfl
      have hone : (grow (mkContour first) rest).1.nument = 1 := by omega
      have hid := grow_eq_self (mkContour first) rest (by rw [hone, hmk])
      have hg1 : (grow (mkContour first) rest).1 = mkContour first := by rw [hid]
      have hg2 : (grow (mkContour first) rest).2 = rest := by rw [hid]
      rw [hg1, hg2, hmk, if_neg (by omega : ¬(1 > 1))]
      by_cases hk : first.kind = Kind.line
      · rw [if_pos hk]
        intro cn hcn
        exact fcLoop_chain rest cn hcn
      · rw [if_neg hk]
        intro cn hcn
        exact fcLoop_chain rest cn hcn
termination_by els.length
decreasing_by
  all_goals simp only [List.length_cons]
  all_goals first
    | exact Nat.lt_succ_of_le (grow_length_le _ _)
    | exact Nat.lt_succ_of_le (Nat.le_refl _)

/-- `Line.length(self)` as written in the source:
`dx = self.x2-self.x1; dy = self.y2-self.x1;
return math.sqrt(dx*dx+dy*dy)` — note that `dy` subtracts `x1`,
not `y1`. -/
noncomputable def Line.length (self : Entity) : ℝ :=
  let dx : ℚ := self.x2 - self.x1
  let dy : ℚ := self.y2 - self.x1
  Real.sqrt ((dx : ℝ) * (dx : ℝ) + (dy : ℝ) * (dy : ℝ))

/-- `math.radians(d)`: degrees to radians. -/
noncomputable def radians (d : ℝ) : ℝ := d * (Real.pi / 180)

/-- Python 2 `int(x)` on a float: truncation toward zero. -/
noncomputable def pytrunc (x : ℝ) : ℤ := if 0 ≤ x then ⌊x⌋ else ⌈x⌉

/-- A `Line` produced by `Arc._gensegments`, embedded over `ℝ`
(endpoints, the bounding box set by `Entity.__init__`, and the `sw`
flag). -/
structure LineR where
  x1 : ℝ
  y1 : ℝ
  x2 : ℝ
  y2 : ℝ
  xmin : ℝ
  ymin : ℝ
  xmax : ℝ
  ymax : ℝ
  sw : Bool

/-- `Line.__init__` over `ℝ` (via `Entity.__init__`). -/
noncomputable def mkLineR (x1 y1 x2 y2 : ℝ) : LineR :=
  { x1 := x1, y1 := y1, x2 := x2, y2 := y2
    xmin := min x1 x2, ymin := min y1 y2
    xmax := max x1 x2, ymax := max y1 y2
    sw := false }

/-- Embedding of the Python class `Arc`: center, radius, start/end
angle (degrees, CCW), the lazily cached subdivision (`None` at
construction), the derived endpoints, bounding box and `sw` flag. -/
structure Arc where
  cx : ℝ
  cy : ℝ
  R : ℝ
  a1 : ℝ
  a2 : ℝ
  segments : Option (List LineR)
  x1 : ℝ
  y1 : ℝ
  x2 : ℝ
  y2 : ℝ
  xmin : ℝ
  ymin : ℝ
  xmax : ℝ
  ymax : ℝ
  sw : Bool

/-- One iteration of the bounding-box refinement loop of
`Arc.__init__` (`for ang in range(A1, A2)`): the candidate point at
angle `90*ang` widens the box via the
`if px > xmax: ... elif px < xmin: ...` ladder. -/
noncomputable def bbstep (cx cy R : ℝ) (bb : ℝ × ℝ × ℝ × ℝ) (ang : ℤ) :
    ℝ × ℝ × ℝ × ℝ :=
  let px := cx + R * Real.cos (radians (90 * (ang : ℝ)))
  let py := cy + R * Real.sin (radians (90 * (ang : ℝ)))
  let (xmin, ymin, xmax, ymax) := bb
  let (xmin, xmax) :=
    if px > xmax then (xmin, px)
    else if px < xmin then (px, xmax) else (xmin, xmax)
  let (ymin, ymax) :=
    if py > ymax then (ymin, py)
    else if py < ymin then (py, ymax) else (ymin, ymax)
  (xmin, ymin, xmax, ymax)

/-- `Arc.__init__(self, cx, cy, R, a1, a2)` (precondition `a2 > a1`,
asserted in the source): derives the endpoints from the angles, seeds
the bounding box from the endpoints via `Entity.__init__`, then
refines it over `range(A1, A2)` where `A1 = int(a1)/90` and
`A2 = int(a2)/90` with Python 2 semantics (truncation toward zero,
then floor division by 90). -/
noncomputable def mkArc (cx cy R a1 a2 : ℝ) : Arc :=
  let x1 := cx + R * Real.cos (radians a1)
  let y1 := cy + R * Real.sin (radians a1)
  let x2 := cx + R * Real.cos (radians a2)
  let y2 := cy + R * Real.sin (radians a2)
  let A1 := (pytrunc a1).fdiv 90
  let A2 := (pytrunc a2).fdiv 90
  let angs := (List.range (A2 - A1).toNat).map (fun k : ℕ => A1 + (k : ℤ))
  let bb := angs.foldl (bbstep cx cy R)
    (min x1 x2, min y1 y2, max x1 x2, max y1 y2)
  { cx := cx, cy := cy, R := R, a1 := a1, a2 := a2, segments := none
    x1 := x1, y1 := y1, x2 := x2, y2 := y2
    xmin := bb.1, ymin := bb.2.1, xmax := bb.2.2.1, ymax := bb.2.2.2
    sw := false }

/-- `Entity.swap` as inherited by `Arc`: only the endpoints and the
`sw` flag change. -/
noncomputable def Arc.swap (self : Arc) : Arc :=
  { self with x1 := self.x2, x2 := self.x1, y1 := self.y2, y2 := self.y1,
              sw := !self.sw }

/-- `_frange(start, end, step)`: the float range of the source,
written as the recursion its `while` loops perform — starting from
`start`, keep adding `step` (appending after each increment) while the
current value has not passed `end`.  The source's preconditions
(`start ≠ end`, `step ≠ 0`, sign of `step` matching the direction)
select one of the two guarded branches; outside them the function
returns `[start]` just as the loops would run zero iterations. -/
noncomputable def frange (s e step : ℝ) : List ℝ :=
  if hup : 0 < step ∧ s < e then s :: frange (s + step) e step
  else if hdown : step < 0 ∧ e < s then s :: frange (s + step) e step
  else [s]
termination_by (⌈(e - s) / step⌉).toNat
decreasing_by
  · have hpos : 0 < (e - s) / step := div_pos (by linarith [hup.2]) hup.1
    have hstep : step ≠ 0 := ne_of_gt hup.1
    have key : (e - (s + step)) / step = (e - s) / step - 1 := by
      rw [show e - (s + step) = (e - s) - step by ring, sub_div,
        div_self hstep]
    rw [key, Int.ceil_sub_one]
    have hce : 0 < ⌈(e - s) / step⌉ := Int.ceil_pos.mpr hpos
    omega
  · have hpos : 0 < (e - s) / step := by
      refine div_pos_iff.mpr (Or.inr ⟨by linarith [hdown.2], hdown.1⟩)
    have hstep : step ≠ 0 := ne_of_lt hdown.1
    have key : (e - (s + step)) / step = (e - s) / step - 1 := by
      rw [show e - (s + step) = (e - s) - step by ring, sub_div,
        div_self hstep]
    rw [key, Int.ceil_sub_one]
    have hce : 0 < ⌈(e - s) / step⌉ := Int.ceil_pos.mpr hpos
    omega

/-- The `for j in range(1, len(pnts))` loop of `_gensegments`: a
`Line` between each pair of consecutive points. -/
noncomputable def pairs : List (ℝ × ℝ) → List LineR
  | p :: q :: rest => mkLineR p.1 p.2 q.1 q.2 :: pairs (q :: rest)
  | _ => []

/-- `Arc._gensegments(self)`: subdivide the arc into segments of
chord length at most `segmentsize` (the class attribute, default 5):
one segment when `segmentsize/R > 1`, otherwise
`floor(span/ang) + 1` equal-angle steps with
`ang = asin(segmentsize/R)` in degrees; a swapped arc is walked from
`a2` down to `a1` with the negated step. -/
noncomputable def gensegments (segmentsize : ℝ) (self : Arc) : List LineR :=
  let fr := segmentsize / self.R
  let cntstep : ℤ × ℝ :=
    if fr > 1 then (1, self.a2 - self.a1)
    else
      let ang := Real.arcsin fr / Real.pi * 180
      let cnt := ⌊(self.a2 - self.a1) / ang⌋ + 1
      (cnt, (self.a2 - self.a1) / (cnt : ℝ))
  let sa := if self.sw then self.a2 else self.a1
  let ea := if self.sw then self.a1 else self.a2
  let step := if self.sw then -cntstep.2 else cntstep.2
  let angs := frange sa ea step
  let pnts := angs.map (fun a =>
    (self.cx + self.R * Real.cos (radians a),
     self.cy + self.R * Real.sin (radians a)))
  pairs pnts

/-- A mapped `List.range (n + 1)` with its head exposed. -/
theorem map_range_shift {α : Type} (n : ℕ) (f : ℕ → α) :
    (List.range (n + 1)).map f = f 0 :: (List.range n).map fun k => f (k + 1) := by
  rw [List.range_succ_eq_map]
  simp [List.map_map, Function.comp_def]

/-- In exact arithmetic, when the step divides the span exactly
(`e = s + cnt·step`), `_frange` returns precisely the `cnt + 1`
equally spaced values `s, s + step, …, s + cnt·step` — in either
direction. -/
theorem frange_exact (step : ℝ) (hs : step ≠ 0) :
    ∀ (cnt : ℕ), 1 ≤ cnt → ∀ (s : ℝ),
      frange s (s + (cnt : ℝ) * step) step =
        (List.range (cnt + 1)).map (fun i : ℕ => s + (i : ℝ) * step) := by
  intro cnt
  induction cnt with
  | zero => intro h; exact absurd h (by omega)
  | succ n ih =>
    intro _ s
    have hposN : (0 : ℝ) < ((n + 1 : ℕ) : ℝ) := by exact_mod_cast Nat.succ_pos n
    have hunfold : frange s (s + ((n + 1 : ℕ) : ℝ) * step) step
        = s :: frange (s + step) (s + ((n + 1 : ℕ) : ℝ) * step) step := by
      rcases lt_or_gt_of_ne hs with hneg | hpos
      · have he : s + ((n + 1 : ℕ) : ℝ) * step < s := by nlinarith
        rw [frange, dif_neg (by rintro ⟨h1, -⟩; exact absurd h1 (by linarith)),
          dif_pos ⟨hneg, he⟩]
      · have he : s < s + ((n + 1 : ℕ) : ℝ) * step := by nlinarith
        rw [frange, dif_pos ⟨hpos, he⟩]
    rw [hunfold]
    cases n with
    | zero =>
      have hE : s + ((0 + 1 : ℕ) : ℝ) * step = s + step := by push_cast; ring
      rw [hE, frange,
        dif_neg (by rintro ⟨-, hlt⟩; exact lt_irrefl _ hlt),
        dif_neg (by rintro ⟨-, hlt⟩; exact lt_irrefl _ hlt)]
      simp [List.range_succ]
    | succ m =>
      have he2 : s + ((m + 1 + 1 : ℕ) : ℝ) * step
          = (s + step) + ((m + 1 : ℕ) : ℝ) * step := by push_cast; ring
      rw [he2, ih (by omega) (s + step)]
      conv_rhs => rw [map_range_shift]
      congr 1
      · norm_num
      · refine List.map_congr_left fun i _ => ?_
        push_cast
        ring

/-- Specification of the consecutive-pairs loop: on a list with at
least two points it produces one segment per consecutive pair; its
first segment starts at the first point and its last segment ends at
the last point. -/
theorem pairs_spec (l : List (ℝ × ℝ)) (p q : ℝ × ℝ) :
    (pairs (p :: q :: l)).length = (q :: l).length ∧
    (pairs (p :: q :: l)).head? = some (mkLineR p.1 p.2 q.1 q.2) ∧
    ∃ seg, (pairs (p :: q :: l)).getLast? = some seg ∧
      some (seg.x2, seg.y2) = (p :: q :: l).getLast? := by
  induction l generalizing p q with
  | nil =>
    refine ⟨rfl, rfl, ⟨mkLineR p.1 p.2 q.1 q.2, rfl, ?_⟩⟩
    simp [mkLineR]
  | cons r l2 ih =>
    obtain ⟨hlen, hhead, seg, hlast, hxy⟩ := ih q r
    refine ⟨?_, rfl, ⟨seg, ?_, ?_⟩⟩
    · simp only [pairs, List.length_cons] at hlen ⊢
      omega
    · simp only [pairs] at hlast ⊢
      rw [List.getLast?_cons_cons]
      exact hlast
    · rw [List.getLast?_cons_cons]
      exact hxy

/-- `List.range (m + 1 + 1)` mapped, with its first two values
exposed. -/
theorem map_range_two {α : Type} (f : ℕ → α) (m : ℕ) :
    (List.range (m + 1 + 1)).map f
      = f 0 :: f 1 :: (List.range m).map (fun i => f (i + 2)) := by
  rw [List.range_succ_eq_map, List.range_succ_eq_map]
  simp [List.map_map, Function.comp_def]

/-- The last element of a mapped `List.range`. -/
theorem getLast_map_range {α : Type} (f : ℕ → α) (n : ℕ) :
    ((List.range (n + 1)).map f).getLast? = some (f n) := by
  rw [List.range_succ, List.map_append]
  simp

/-- `pairs` over a mapped index range: `M + 1` segments, the first
starting at the point of index 0 and the last ending at the point of
index `M + 1`. -/
theorem pairs_map_range_spec (F : ℕ → ℝ × ℝ) (M : ℕ) :
    (pairs ((List.range (M + 1 + 1)).map F)).length = M + 1 ∧
    ∃ f l, (pairs ((List.range (M + 1 + 1)).map F)).head? = some f ∧
      (pairs ((List.range (M + 1 + 1)).map F)).getLast? = some l ∧
      f.x1 = (F 0).1 ∧ f.y1 = (F 0).2 ∧
      l.x2 = (F (M + 1)).1 ∧ l.y2 = (F (M + 1)).2 := by
  have hl2 := getLast_map_range F (M + 1)
  rw [map_range_two] at hl2 ⊢
  obtain ⟨hlen, hhead, seg, hlast, hxy⟩ :=
    pairs_spec ((List.range M).map (fun i => F (i + 2))) (F 0) (F 1)
  have heq : (seg.x2, seg.y2) = F (M + 1) :=
    Option.some_inj.mp (hxy.trans hl2)
  refine ⟨?_, mkLineR (F 0).1 (F 0).2 (F 1).1 (F 1).2, seg, hhead, hlast,
    rfl, rfl, congrArg Prod.fst heq, congrArg Prod.snd heq⟩
  rw [hlen]
  simp

/-- Core of the arc-subdivision specification: for any exact division
`ea = sa + N·st` of the angular span into `N ≥ 1` steps, the segment
chain produced from `_frange(sa, ea, st)` has exactly `N` segments,
starts at the arc point of angle `sa` and ends at the arc point of
angle `ea` — exactly, in real arithmetic. -/
theorem gensegments_tail (cx cy R sa ea st : ℝ) (N : ℕ) (hN : 1 ≤ N)
    (hst : st ≠ 0) (hea : ea = sa + (N : ℝ) * st) :
    (pairs ((frange sa ea st).map
        (fun a => (cx + R * Real.cos (radians a),
                   cy + R * Real.sin (radians a))))).length = N ∧
    ∃ f l,
      (pairs ((frange sa ea st).map
          (fun a => (cx + R * Real.cos (radians a),
                     cy + R * Real.sin (radians a))))).head? = some f ∧
      (pairs ((frange sa ea st).map
          (fun a => (cx + R * Real.cos (radians a),
                     cy + R * Real.sin (radians a))))).getLast? = some l ∧
      f.x1 = cx + R * Real.cos (radians sa) ∧
      f.y1 = cy + R * Real.sin (radians sa) ∧
      l.x2 = cx + R * Real.cos (radians ea) ∧
      l.y2 = cy + R * Real.sin (radians ea) := by
  subst hea
  obtain ⟨M, rfl⟩ : ∃ M, N = M + 1 := ⟨N - 1, by omega⟩
  rw [frange_exact st hst (M + 1) (by omega) sa, List.map_map]
  obtain ⟨hlen, f, l, hh, hl, hx1, hy1, hx2, hy2⟩ :=
    pairs_map_range_spec
      ((fun a => (cx + R * Real.cos (radians a),
                  cy + R * Real.sin (radians a))) ∘
        (fun i : ℕ => sa + (i : ℝ) * st)) M
  refine ⟨hlen, f, l, hh, hl, ?_, ?_, ?_, ?_⟩
  · rw [hx1]
    simp [Function.comp_apply]
  · rw [hy1]
    simp [Function.comp_apply]
  · rw [hx2]
    simp [Function.comp_apply]
  · rw [hy2]
    simp [Function.comp_apply]

/-- Full specification of `_gensegments` for an arc with `0 < R` and
`a1 < a2` (the constructor's precondition) and a positive chord bound:
the number of produced segments is 1 in the chord-limited case
(`S/R > 1`) and `floor(span/ang) + 1` otherwise, and the chain runs
exactly from the arc point at the start angle to the arc point at the
end angle of the arc's current orientation. -/
theorem gensegments_spec (S : ℝ) (A : Arc)
    (hR : 0 < A.R) (hS : 0 < S) (ha : A.a1 < A.a2) :
    ∃ N : ℕ, 1 ≤ N ∧
      (S / A.R > 1 → N = 1) ∧
      (¬ S / A.R > 1 →
        (N : ℤ) = ⌊(A.a2 - A.a1) / (Real.arcsin (S / A.R) / Real.pi * 180)⌋ + 1) ∧
      ((gensegments S A).length = N ∧
        ∃ f l, (gensegments S A).head? = some f ∧
          (gensegments S A).getLast? = some l ∧
          f.x1 = A.cx + A.R * Real.cos (radians (if A.sw then A.a2 else A.a1)) ∧
          f.y1 = A.cy + A.R * Real.sin (radians (if A.sw then A.a2 else A.a1)) ∧
          l.x2 = A.cx + A.R * Real.cos (radians (if A.sw then A.a1 else A.a2)) ∧
          l.y2 = A.cy + A.R * Real.sin (radians (if A.sw then A.a1 else A.a2))) := by
  have hspan : 0 < A.a2 - A.a1 := by linarith
  obtain ⟨cnt, hc1, hcgt, hcng, hgen⟩ :
      ∃ cnt : ℤ, 1 ≤ cnt ∧ (S / A.R > 1 → cnt = 1) ∧
        (¬ S / A.R > 1 →
          cnt = ⌊(A.a2 - A.a1) / (Real.arcsin (S / A.R) / Real.pi * 180)⌋ + 1) ∧
        gensegments S A = pairs
          ((frange (if A.sw then A.a2 else A.a1) (if A.sw then A.a1 else A.a2)
              (if A.sw then -((A.a2 - A.a1) / (cnt : ℝ))
               else (A.a2 - A.a1) / (cnt : ℝ))).map
            (fun a => (A.cx + A.R * Real.cos (radians a),
                       A.cy + A.R * Real.sin (radians a)))) := by
    by_cases hgt : S / A.R > 1
    · refine ⟨1, le_refl 1, fun _ => rfl, fun h => absurd hgt h, ?_⟩
      simp only [gensegments]
      rw [if_pos hgt]
      simp only [Int.cast_one, div_one]
    · have hangpos : 0 < Real.arcsin (S / A.R) / Real.pi * 180 := by
        have h1 : 0 < Real.arcsin (S / A.R) :=
          Real.arcsin_pos.mpr (div_pos hS hR)
        have h2 := Real.pi_pos
        positivity
      have hfl : 0 ≤ ⌊(A.a2 - A.a1) / (Real.arcsin (S / A.R) / Real.pi * 180)⌋ :=
        Int.floor_nonneg.mpr (div_nonneg (by linarith) hangpos.le)
      refine ⟨⌊(A.a2 - A.a1) / (Real.arcsin (S / A.R) / Real.pi * 180)⌋ + 1,
        by omega, fun h => absurd h hgt, fun _ => rfl, ?_⟩
      simp only [gensegments]
      rw [if_neg hgt]
  have hcpos : (0 : ℝ) < (cnt : ℝ) := by exact_mod_cast lt_of_lt_of_le zero_lt_one hc1
  have hcne : ((cnt : ℝ)) ≠ 0 := ne_of_gt hcpos
  have hstpos : 0 < (A.a2 - A.a1) / (cnt : ℝ) := div_pos hspan hcpos
  have hNc : ((cnt.toNat : ℕ) : ℝ) = (cnt : ℝ) := by
    exact_mod_cast Int.toNat_of_nonneg (by omega)
  have hN1 : 1 ≤ cnt.toNat := by omega
  refine ⟨cnt.toNat, hN1, ?_, ?_, ?_⟩
  · intro h
    have := hcgt h
    omega
  · intro h
    have := hcng h
    omega
  · cases hsw : A.sw with
    | false =>
      rw [hgen, hsw]
      simp only [Bool.false_eq_true, if_false]
      have hea : A.a2 = A.a1 + ((cnt.toNat : ℕ) : ℝ) * ((A.a2 - A.a1) / (cnt : ℝ)) := by
        rw [hNc]
        field_simp
      exact gensegments_tail A.cx A.cy A.R A.a1 A.a2 ((A.a2 - A.a1) / (cnt : ℝ))
        cnt.toNat hN1 (ne_of_gt hstpos) hea
    | true =>
      rw [hgen, hsw]
      simp only [if_true]
      have hea : A.a1 = A.a2 + ((cnt.toNat : ℕ) : ℝ) * (-((A.a2 - A.a1) / (cnt : ℝ))) := by
        rw [hNc]
        field_simp
      exact gensegments_tail A.cx A.cy A.R A.a2 A.a1 (-((A.a2 - A.a1) / (cnt : ℝ)))
        cnt.toNat hN1 (by simpa using ne_of_gt hstpos) hea

/-- One unfolding of `grow` when the scan joined something. -/
theorem grow_step (cn cn2 : Contour) (els els2 : List Entity)
    (h : scan cn els = (cn2, els2)) (hne : cn2.nument ≠ cn.nument) :
    grow cn els = grow cn2 els2 := by
  rw [grow, h, dif_neg hne]

/-- One unfolding of `grow` when the scan joined nothing. -/
theorem grow_fix (cn cn2 : Contour) (els els2 : List Entity)
    (h : scan cn els = (cn2, els2)) (heq : cn2.nument = cn.nument) :
    grow cn els = (cn2, els2) := by
  rw [grow, h, dif_pos heq]

/-- The empty-working-set case of the outer loop. -/
theorem fcLoop_nil : fcLoop [] = ([], [], []) := by
  rw [fcLoop]

/-- One iteration of the outer loop that emits a contour. -/
theorem fcLoop_cons_contour (first : Entity) (rest : List Entity)
    (cn2 : Contour) (els2 : List Entity)
    (h : grow (mkContour first) rest = (cn2, els2)) (h2 : cn2.nument > 1) :
    fcLoop (first :: rest) =
      (cn2 :: (fcLoop els2).1, (fcLoop els2).2.1, (fcLoop els2).2.2) := by
  rw [fcLoop, h, if_pos h2]

/-- One iteration of the outer loop that emits a leftover line. -/
theorem fcLoop_cons_leftover_line (first : Entity) (rest : List Entity)
    (h : grow (mkContour first) rest = (mkContour first, rest))
    (hk : first.kind = Kind.line) :
    fcLoop (first :: rest) =
      ((fcLoop rest).1, first :: (fcLoop rest).2.1, (fcLoop rest).2.2) := by
  rw [fcLoop, h, if_neg (by norm_num [mkContour]), if_pos hk]

/-- Concrete evaluation: one scan starting from the contour seeded
with `entA` joins `entB` and leaves the branch `entC` unjoined. -/
theorem scan_eval1 : scan (mkContour entA) [entB, entC] = (cnAB, [entC]) := by
  norm_num [scan, tryJoin, Contour.append, Contour.prepend, mkContour, entA, entB,
    entC, cnAB, mkEntity, Entity.fits, fabs, delta, merge_bb, Entity.getbb,
    Contour.getbb, Entity.swap]

/-- Concrete evaluation: the contour `[entA, entB]` cannot absorb the
branch `entC` (its open ends are (0,0) and (2,0), but `entC` hangs off
the interior junction (1,0)). -/
theorem scan_eval2 : scan cnAB [entC] = (cnAB, [entC]) := by
  norm_num [scan, tryJoin, Contour.append, Contour.prepend, mkContour, entA, entB,
    entC, cnAB, mkEntity, Entity.fits, fabs, delta, merge_bb, Entity.getbb,
    Contour.getbb, Entity.swap]

/-- Concrete evaluation: a scan over the empty working set. -/
theorem scan_eval3 : scan (mkContour entC) [] = (mkContour entC, []) := by
  norm_num [scan]

/-- Concrete evaluation of the fixpoint loop for the T-junction
input. -/
theorem grow_eval1 : grow (mkContour entA) [entB, entC] = (cnAB, [entC]) := by
  rw [grow_step _ _ _ _ scan_eval1 (by norm_num [cnAB, mkContour])]
  exact grow_fix _ _ _ _ scan_eval2 rfl

/-- Concrete evaluation: growing the contour seeded with `entC` over
an empty working set changes nothing. -/
theorem grow_eval2 : grow (mkContour entC) [] = (mkContour entC, []) :=
  grow_fix _ _ _ _ scan_eval3 rfl

/-- Concrete evaluation of `find_contours` on the T-junction input
`[entA, entB, entC]`: one contour `[entA, entB]` and the leftover line
`entC`, although `entC` is δ-coincident with the junction. -/
theorem fc_eval : find_contours [entA, entB, entC] [] = ([cnAB], [entC], []) := by
  have h1 : fcLoop [entC] = ([], [entC], []) := by
    rw [fcLoop_cons_leftover_line entC [] grow_eval2 rfl, fcLoop_nil]
  rw [find_contours]
  simp only [List.append_nil]
  rw [fcLoop_cons_contour entA [entB, entC] cnAB [entC] grow_eval1
    (by norm_num [cnAB]), h1]

/-- C1: partition property of `find_contours`.  For every pair of
input lists, the multiset of entities across all output contour member
lists and both leftover lists equals the input multiset — every input
appears in exactly one output place, never dropped and never
duplicated.  Entities are compared through `canon`, which undoes the
in-place endpoint swap an entity may have received while being joined
(object identity in the Python source); and each leftover list holds
only entities of its own class. -/
theorem claim_C1_partition (lol loa : List Entity) :
    ((members (find_contours lol loa).1 ++ (find_contours lol loa).2.1 ++
        (find_contours lol loa).2.2).map canon).Perm ((lol ++ loa).map canon) ∧
    ((find_contours lol loa).2.1.all fun e => decide (e.kind = Kind.line)) = true ∧
    ((find_contours lol loa).2.2.all fun e => decide (e.kind = Kind.arc)) = true :=
  ⟨fcLoop_perm (lol ++ loa), (fcLoop_kinds (lol ++ loa)).1,
    (fcLoop_kinds (lol ++ loa)).2⟩

/-- C2, refutation of the claimed "iff": in the T-junction input
`[entA, entB, entC]` the branch `entC` is δ-coincident with `entA`
(`fits` returns 2, so they are in the same connected component of the
`fits` graph), yet `find_contours` puts `entA` into the single output
contour and `entC` into the leftover list — two δ-connected primitives
that do NOT end up in the same contour. -/
theorem claim_C2_counterexample :
    entA.fits 2 entC = 2 ∧
    find_contours [entA, entB, entC] [] = ([cnAB], [entC], []) ∧
    cnAB.ent = [entA, entB] ∧
    entC ∉ cnAB.ent := by
  refine ⟨by norm_num [entA, entC, mkEntity, Entity.fits, fabs, delta],
    fc_eval, rfl, ?_⟩
  norm_num [cnAB, entA, entB, entC, mkEntity]

/-- C2, amended: only the forward direction survives.  Any two
primitives placed in the same output contour are linked by a chain of
pairwise δ-coincident members: consecutive members of every emitted
contour satisfy the (swap-invariant, symmetric) `fits` adjacency
relation.  The converse is false (see the counterexample). -/
theorem claim_C2_connectivity_amended (lol loa : List Entity) (cn : Contour)
    (h : cn ∈ (find_contours lol loa).1) : List.Chain' fitsRel cn.ent :=
  fcLoop_chain (lol ++ loa) cn h

/-- Witness for the amended C2 at a concrete input. -/
theorem claim_C2_witness : List.Chain' fitsRel cnAB.ent :=
  claim_C2_connectivity_amended [entA, entB, entC] [] cnAB
    (by rw [show (find_contours [entA, entB, entC] []).1 = [cnAB] by rw [fc_eval]]
        exact List.mem_singleton.mpr rfl)

/-- The `fits` result is always 0, 1 or 2. -/
theorem fits_cases (a : Entity) (i : ℕ) (b : Entity) :
    a.fits i b = 0 ∨ a.fits i b = 1 ∨ a.fits i b = 2 := by
  unfold Entity.fits
  split_ifs <;> simp

/-- C3, refutation: the claim has the swap convention backwards.  With
the contour seeded by `entA` (end point (1,0)) and the candidate
`entD` running from (2,0) to (1,0), `fits` returns free end 1, and the
source *swaps* the candidate before appending it — the stored member
is `entD.swap`, not the unmodified `entD` the claim requires. -/
theorem claim_C3_counterexample :
    entA.fits 2 entD = 1 ∧
    ((mkContour entA).append entD).1 = true ∧
    ((mkContour entA).append entD).2.ent = [entA, entD.swap] ∧
    entD.swap ≠ entD ∧
    ((mkContour entA).append entD).2.ent ≠ [entA, entD] := by
  have hf : entA.fits 2 entD = 1 := by
    norm_num [entA, entD, mkEntity, Entity.fits, fabs, delta]
  have hsw : entD.swap ≠ entD := by
    norm_num [entD, mkEntity, Entity.swap]
  refine ⟨hf, ?_, ?_, hsw, ?_⟩ <;>
    norm_num [Contour.append, mkContour, hf, entA, entD, mkEntity, Entity.swap,
      merge_bb, Entity.getbb, Contour.getbb, fabs, delta, Entity.fits]

/-- C3, amended: when `append` succeeds after testing the candidate
against the last member's end 2, the candidate is appended unmodified
when the returned free end is 2 (its start is the joining point), and
is first reversed (endpoints swapped, `sw` toggled) when the returned
free end is 1. -/
theorem claim_C3_append_amended (cn : Contour) (e : Entity) (last : Entity)
    (hl : cn.ent.getLast? = some last) (h : (cn.append e).1 = true) :
    (last.fits 2 e = 2 ∧ (cn.append e).2.ent = cn.ent ++ [e]) ∨
    (last.fits 2 e = 1 ∧ (cn.append e).2.ent = cn.ent ++ [e.swap]) := by
  obtain ⟨last2, hl2, h0, hent, -, -⟩ := append_success cn e h
  have hsame : last2 = last := by
    rw [hl] at hl2
    exact (Option.some_inj.mp hl2).symm
  subst hsame
  rcases fits_cases last2 2 e with hv | hv | hv
  · exact absurd hv h0
  · right
    refine ⟨hv, ?_⟩
    rw [hent, if_pos hv]
  · left
    refine ⟨hv, ?_⟩
    rw [hent, if_neg (by omega)]

/-- Witness for the amended C3 at a concrete input (free end 1, so the
candidate is appended swapped). -/
theorem claim_C3_witness :
    (entA.fits 2 entD = 2 ∧
      ((mkContour entA).append entD).2.ent = (mkContour entA).ent ++ [entD]) ∨
    (entA.fits 2 entD = 1 ∧
      ((mkContour entA).append entD).2.ent =
        (mkContour entA).ent ++ [entD.swap]) :=
  claim_C3_append_amended (mkContour entA) entD entA rfl
    (by norm_num [Contour.append, mkContour, entA, entD, mkEntity, Entity.fits,
      fabs, delta])

/-- C4: the contract of `fits`.  For an end index in {1, 2}, the
result is 2 when the designated reference end is within δ of the
candidate's start point in both coordinates, otherwise 1 when it is
within δ of the candidate's end point, otherwise 0.  (The reference's
end-`i` point is `(x1, y1)` for `i = 1` and `(x2, y2)` for `i = 2`.) -/
theorem claim_C4_fits (s o : Entity) (i : ℕ) (hi : i = 1 ∨ i = 2) :
    s.fits i o =
      if |(if i = 1 then s.x1 else s.x2) - o.x1| < delta ∧
         |(if i = 1 then s.y1 else s.y2) - o.y1| < delta then 2
      else if |(if i = 1 then s.x1 else s.x2) - o.x2| < delta ∧
              |(if i = 1 then s.y1 else s.y2) - o.y2| < delta then 1
      else 0 := by
  rcases hi with rfl | rfl <;>
    simp [Entity.fits, fabs_eq_abs]

/-- Witness for C4 at a concrete end index and pair of entities. -/
theorem claim_C4_witness :
    entA.fits 2 entB =
      if |(if 2 = 1 then entA.x1 else entA.x2) - entB.x1| < delta ∧
         |(if 2 = 1 then entA.y1 else entA.y2) - entB.y1| < delta then 2
      else if |(if 2 = 1 then entA.x1 else entA.x2) - entB.x2| < delta ∧
              |(if 2 = 1 then entA.y1 else entA.y2) - entB.y2| < delta then 1
      else 0 :=
  claim_C4_fits entA entB 2 (Or.inr rfl)

/-- C7: the bounding-box union invariant of contour growth.  After a
successful `append` or `prepend` the contour's bounding box is exactly
`merge_bb` of its previous box and the joined primitive's box; after a
failed `append` or `prepend` the contour — member list, bounding box
and endpoints, i.e. the whole record — is unchanged. -/
theorem claim_C7_bbox_union (cn : Contour) (e : Entity) :
    ((cn.append e).1 = true →
      (cn.append e).2.getbb = merge_bb cn.getbb e.getbb) ∧
    ((cn.append e).1 = false → (cn.append e).2 = cn) ∧
    ((cn.prepend e).1 = true →
      (cn.prepend e).2.getbb = merge_bb cn.getbb e.getbb) ∧
    ((cn.prepend e).1 = false → (cn.prepend e).2 = cn) := by
  refine ⟨fun h => ?_, fun h => ?_, fun h => ?_, fun h => ?_⟩
  · obtain ⟨_, _, _, _, _, hbb⟩ := append_success cn e h
    exact hbb
  · rcases append_cases cn e with ⟨_, h2⟩ | ⟨ht, _, _⟩
    · exact h2
    · rw [h] at ht
      exact absurd ht (by simp)
  · obtain ⟨_, _, _, _, _, hbb⟩ := prepend_success cn e h
    exact hbb
  · rcases prepend_cases cn e with ⟨_, h2⟩ | ⟨ht, _, _⟩
    · exact h2
    · rw [h] at ht
      exact absurd ht (by simp)

/-- Witness for C7: a successful append takes the `merge_bb` union,
and a failed append (distant candidate `entE`) leaves the contour
unchanged. -/
theorem claim_C7_witness :
    ((mkContour entA).append entB).2.getbb =
      merge_bb (mkContour entA).getbb entB.getbb ∧
    ((mkContour entA).append entE).2 = mkContour entA :=
  ⟨(claim_C7_bbox_union (mkContour entA) entB).1
      (by norm_num [Contour.append, mkContour, entA, entB, mkEntity, Entity.fits,
        fabs, delta]),
   (claim_C7_bbox_union (mkContour entA) entE).2.1
      (by norm_num [Contour.append, mkContour, entA, entE, mkEntity, Entity.fits,
        fabs, delta])⟩

/-- C9: the comparison contract, for `Entity` (lines and arcs) and for
`Contour` (which inherits the same methods).  `a < b` holds iff
`a.xmin < b.xmin`, or `a.xmin = b.xmin` and `a.ymin < b.ymin`;
`a == b` holds iff both `xmin` and `ymin` agree; and replacing the
`xmax`/`ymax` fields by arbitrary values never changes either
comparison. -/
theorem claim_C9_ordering (a b : Entity) (c d : Contour) :
    (a.lt b = true ↔
      (a.xmin < b.xmin ∨ (a.xmin = b.xmin ∧ a.ymin < b.ymin))) ∧
    (a.eqb b = true ↔ (a.xmin = b.xmin ∧ a.ymin = b.ymin)) ∧
    (c.lt d = true ↔
      (c.xmin < d.xmin ∨ (c.xmin = d.xmin ∧ c.ymin < d.ymin))) ∧
    (c.eqb d = true ↔ (c.xmin = d.xmin ∧ c.ymin = d.ymin)) ∧
    (∀ m n m2 n2 : ℚ,
      ({ a with xmax := m, ymax := n } : Entity).lt
          { b with xmax := m2, ymax := n2 } = a.lt b ∧
      ({ a with xmax := m, ymax := n } : Entity).eqb
          { b with xmax := m2, ymax := n2 } = a.eqb b ∧
      ({ c with xmax := m, ymax := n } : Contour).lt
          { d with xmax := m2, ymax := n2 } = c.lt d ∧
      ({ c with xmax := m, ymax := n } : Contour).eqb
          { d with xmax := m2, ymax := n2 } = c.eqb d) := by
    refine ⟨?_, ?_, ?_, ?_, fun m n m2 n2 => ⟨rfl, rfl, rfl, rfl⟩⟩
    · by_cases h : a.xmin = b.xmin <;> simp [Entity.lt, h]
    · simp [Entity.eqb]
    · by_cases h : c.xmin = d.xmin <;> simp [Contour.lt, h]
    · simp [Contour.eqb]

/-- C10: `swap` exchanges the two endpoints and negates the `sw` flag
and changes nothing else — for plain entities (lines/arcs in the
stitching layer), for the real-valued `Arc` (center, radius, angles
and the cached segment list are untouched), and for `Contour` (member
list and count untouched); consequently `swap` is an involution on
each. -/
theorem claim_C10_swap (e : Entity) (A : Arc) (cn : Contour) :
    (e.swap.x1 = e.x2 ∧ e.swap.y1 = e.y2 ∧ e.swap.x2 = e.x1 ∧
     e.swap.y2 = e.y1 ∧ e.swap.sw = !e.sw ∧ e.swap.kind = e.kind ∧
     e.swap.xmin = e.xmin ∧ e.swap.ymin = e.ymin ∧
     e.swap.xmax = e.xmax ∧ e.swap.ymax = e.ymax ∧ e.swap.swap = e) ∧
    (A.swap.x1 = A.x2 ∧ A.swap.y1 = A.y2 ∧ A.swap.x2 = A.x1 ∧
     A.swap.y2 = A.y1 ∧ A.swap.sw = !A.sw ∧
     A.swap.cx = A.cx ∧ A.swap.cy = A.cy ∧ A.swap.R = A.R ∧
     A.swap.a1 = A.a1 ∧ A.swap.a2 = A.a2 ∧ A.swap.segments = A.segments ∧
     A.swap.xmin = A.xmin ∧ A.swap.ymin = A.ymin ∧
     A.swap.xmax = A.xmax ∧ A.swap.ymax = A.ymax ∧ A.swap.swap = A) ∧
    (cn.swap.x1 = cn.x2 ∧ cn.swap.y1 = cn.y2 ∧ cn.swap.x2 = cn.x1 ∧
     cn.swap.y2 = cn.y1 ∧ cn.swap.sw = !cn.sw ∧
     cn.swap.ent = cn.ent ∧ cn.swap.nument = cn.nument ∧
     cn.swap.xmin = cn.xmin ∧ cn.swap.ymin = cn.ymin ∧
     cn.swap.xmax = cn.xmax ∧ cn.swap.ymax = cn.ymax ∧
     cn.swap.swap = cn) := by
  refine ⟨⟨rfl, rfl, rfl, rfl, rfl, rfl, rfl, rfl, rfl, rfl, swap_swap e⟩,
    ⟨rfl, rfl, rfl, rfl, rfl, rfl, rfl, rfl, rfl, rfl, rfl, rfl, rfl, rfl, rfl,
      ?_⟩,
    ⟨rfl, rfl, rfl, rfl, rfl, rfl, rfl, rfl, rfl, rfl, rfl, ?_⟩⟩
  · cases A
    simp [Arc.swap]
  · cases cn
    simp [Contour.swap]

/-- C6, code bug: `Line.length` computes `dy = self.y2 - self.x1`
(mixing an y with an x coordinate) instead of `self.y2 - self.y1`.
On the vertical unit segment from (1,0) to (1,1) the code returns 0,
while the Euclidean distance between its endpoints is 1. -/
theorem claim_C6_line_length_bug :
    Line.length (mkEntity Kind.line 1 0 1 1) = 0 ∧
    Real.sqrt
      ((((mkEntity Kind.line 1 0 1 1).x2 : ℝ) -
          ((mkEntity Kind.line 1 0 1 1).x1 : ℝ)) ^ 2 +
       (((mkEntity Kind.line 1 0 1 1).y2 : ℝ) -
          ((mkEntity Kind.line 1 0 1 1).y1 : ℝ)) ^ 2) = 1 ∧
    Line.length (mkEntity Kind.line 1 0 1 1) ≠
      Real.sqrt
        ((((mkEntity Kind.line 1 0 1 1).x2 : ℝ) -
            ((mkEntity Kind.line 1 0 1 1).x1 : ℝ)) ^ 2 +
         (((mkEntity Kind.line 1 0 1 1).y2 : ℝ) -
            ((mkEntity Kind.line 1 0 1 1).y1 : ℝ)) ^ 2) := by
  have h1 : Line.length (mkEntity Kind.line 1 0 1 1) = 0 := by
    unfold Line.length
    norm_num [mkEntity]
  have h2 : Real.sqrt
      ((((mkEntity Kind.line 1 0 1 1).x2 : ℝ) -
          ((mkEntity Kind.line 1 0 1 1).x1 : ℝ)) ^ 2 +
       (((mkEntity Kind.line 1 0 1 1).y2 : ℝ) -
          ((mkEntity Kind.line 1 0 1 1).y1 : ℝ)) ^ 2) = 1 := by
    norm_num [mkEntity]
  refine ⟨h1, h2, ?_⟩
  rw [h1, h2]
  norm_num

/-- C8: the arc subdivision contract, for a freshly constructed arc
and for its endpoint-swapped version.  When `S/R > 1` the subdivision
is a single segment; otherwise it has `floor(span/ang) + 1` segments
with `ang = degrees(asin(S/R))`; in every case the first segment's
start point and the last segment's end point agree with the arc's own
endpoints — exactly in real arithmetic, hence well within the 1e-6
tolerance. -/
theorem claim_C8_arc_subdivision (cx cy R a1 a2 S : ℝ)
    (hR : 0 < R) (hS : 0 < S) (ha : a1 < a2) (A : Arc)
    (hA : A = mkArc cx cy R a1 a2 ∨ A = (mkArc cx cy R a1 a2).swap) :
    (S / R > 1 → (gensegments S A).length = 1) ∧
    (¬ S / R > 1 → ((gensegments S A).length : ℤ) =
      ⌊(a2 - a1) / (Real.arcsin (S / R) / Real.pi * 180)⌋ + 1) ∧
    ∃ f l, (gensegments S A).head? = some f ∧
      (gensegments S A).getLast? = some l ∧
      |f.x1 - A.x1| < 1 / 1000000 ∧ |f.y1 - A.y1| < 1 / 1000000 ∧
      |l.x2 - A.x2| < 1 / 1000000 ∧ |l.y2 - A.y2| < 1 / 1000000 := by
  rcases hA with rfl | rfl
  · obtain ⟨N, hN1, hgtN, hngN, hlenN, f, l, hh, hl, hx1, hy1, hx2, hy2⟩ :=
      gensegments_spec S (mkArc cx cy R a1 a2) hR hS ha
    refine ⟨fun h => ?_, fun h => ?_, f, l, hh, hl, ?_, ?_, ?_, ?_⟩
    · rw [hlenN]
      exact hgtN h
    · rw [hlenN]
      exact hngN h
    · have e1 : f.x1 = (mkArc cx cy R a1 a2).x1 := hx1
      rw [e1, sub_self, abs_zero]
      norm_num
    · have e1 : f.y1 = (mkArc cx cy R a1 a2).y1 := hy1
      rw [e1, sub_self, abs_zero]
      norm_num
    · have e1 : l.x2 = (mkArc cx cy R a1 a2).x2 := hx2
      rw [e1, sub_self, abs_zero]
      norm_num
    · have e1 : l.y2 = (mkArc cx cy R a1 a2).y2 := hy2
      rw [e1, sub_self, abs_zero]
      norm_num
  · obtain ⟨N, hN1, hgtN, hngN, hlenN, f, l, hh, hl, hx1, hy1, hx2, hy2⟩ :=
      gensegments_spec S ((mkArc cx cy R a1 a2).swap) hR hS ha
    refine ⟨fun h => ?_, fun h => ?_, f, l, hh, hl, ?_, ?_, ?_, ?_⟩
    · rw [hlenN]
      exact hgtN h
    · rw [hlenN]
      exact hngN h
    · have e1 : f.x1 = ((mkArc cx cy R a1 a2).swap).x1 := hx1
      rw [e1, sub_self, abs_zero]
      norm_num
    · have e1 : f.y1 = ((mkArc cx cy R a1 a2).swap).y1 := hy1
      rw [e1, sub_self, abs_zero]
      norm_num
    · have e1 : l.x2 = ((mkArc cx cy R a1 a2).swap).x2 := hx2
      rw [e1, sub_self, abs_zero]
      norm_num
    · have e1 : l.y2 = ((mkArc cx cy R a1 a2).swap).y2 := hy2
      rw [e1, sub_self, abs_zero]
      norm_num

/-- Witness for C8: the quarter circle of radius 10 from 0° to 90°
with the default chord bound `segmentsize = 5`. -/
theorem claim_C8_witness :
    (0:ℝ) < 10 ∧ (0:ℝ) < 5 ∧ (0:ℝ) < 90 ∧
    ((5 / 10 > (1:ℝ) → (gensegments 5 (mkArc 0 0 10 0 90)).length = 1) ∧
     (¬ 5 / 10 > (1:ℝ) → ((gensegments 5 (mkArc 0 0 10 0 90)).length : ℤ) =
        ⌊((90:ℝ) - 0) / (Real.arcsin (5 / 10) / Real.pi * 180)⌋ + 1) ∧
     ∃ f l, (gensegments 5 (mkArc 0 0 10 0 90)).head? = some f ∧
       (gensegments 5 (mkArc 0 0 10 0 90)).getLast? = some l ∧
       |f.x1 - (mkArc 0 0 10 0 90).x1| < 1 / 1000000 ∧
       |f.y1 - (mkArc 0 0 10 0 90).y1| < 1 / 1000000 ∧
       |l.x2 - (mkArc 0 0 10 0 90).x2| < 1 / 1000000 ∧
       |l.y2 - (mkArc 0 0 10 0 90).y2| < 1 / 1000000) :=
  ⟨by norm_num, by norm_num, by norm_num,
    claim_C8_arc_subdivision 0 0 10 0 90 5 (by norm_num) (by norm_num)
      (by norm_num) (mkArc 0 0 10 0 90) (Or.inl rfl)⟩

/-- C5, code bug: the bounding-box refinement loop of `Arc.__init__`
iterates over `range(int(a1)/90, int(a2)/90)` and therefore checks the
wrong multiples of 90°.  For the arc centered at the origin with
radius 1 from 30° to 120°, the loop checks only 0° (which is not even
on the arc) and misses 90°, the interior axis-crossing extremum
(a multiple of 90° strictly between 30 and 120): the apex
`(cx + R·cos 90°, cy + R·sin 90°) = (0, 1)` lies strictly above the
computed box, whose `ymax` is `√3/2 ≈ 0.866`. -/
theorem claim_C5_arc_bbox_bug :
    (30:ℝ) < 90 ∧ (90:ℝ) < 120 ∧ (90:ℝ) = 90 * ((1:ℤ):ℝ) ∧
    (mkArc 0 0 1 30 120).ymax <
      (mkArc 0 0 1 30 120).cy +
        (mkArc 0 0 1 30 120).R * Real.sin (radians 90) := by
  refine ⟨by norm_num, by norm_num, by norm_num, ?_⟩
  have hymax : (mkArc 0 0 1 30 120).ymax = Real.sqrt 3 / 2 := by
    have hA1 : (pytrunc 30).fdiv 90 = 0 := by
      unfold pytrunc
      rw [if_pos (by norm_num : (0:ℝ) ≤ 30)]
      rw [show ((30:ℝ)) = ((30:ℤ):ℝ) by norm_num, Int.floor_intCast]
      decide
    have hA2 : (pytrunc 120).fdiv 90 = 1 := by
      unfold pytrunc
      rw [if_pos (by norm_num : (0:ℝ) ≤ 120)]
      rw [show ((120:ℝ)) = ((120:ℤ):ℝ) by norm_num, Int.floor_intCast]
      decide
    have hr30 : radians 30 = Real.pi / 6 := by unfold radians; ring
    have hr120 : radians 120 = Real.pi - Real.pi / 3 := by unfold radians; ring
    have hcos30 : Real.cos (radians 30) = Real.sqrt 3 / 2 := by
      rw [hr30]
      exact Real.cos_pi_div_six
    have hsin30 : Real.sin (radians 30) = 1 / 2 := by
      rw [hr30]
      exact Real.sin_pi_div_six
    have hcos120 : Real.cos (radians 120) = -(1 / 2) := by
      rw [hr120, Real.cos_pi_sub, Real.cos_pi_div_three]
    have hsin120 : Real.sin (radians 120) = Real.sqrt 3 / 2 := by
      rw [hr120, Real.sin_pi_sub, Real.sin_pi_div_three]
    simp only [mkArc, hA1, hA2, hcos30, hsin30, hcos120, hsin120]
    have hrange : List.range 1 = [0] := rfl
    norm_num [hrange, List.foldl_cons, List.foldl_nil]
    have hrad0 : radians (90 * ((0:ℤ):ℝ)) = 0 := by norm_num [radians]
    have hc0 : Real.cos (radians (90 * ((0:ℤ):ℝ))) = 1 := by
      rw [hrad0]
      exact Real.cos_zero
    have hs0 : Real.sin (radians (90 * ((0:ℤ):ℝ))) = 0 := by
      rw [hrad0]
      exact Real.sin_zero
    simp only [bbstep, hc0, hs0]
    have h13 : (1:ℝ) ≤ Real.sqrt 3 := by
      nlinarith [Real.sq_sqrt (show (0:ℝ) ≤ 3 by norm_num), Real.sqrt_nonneg 3]
    norm_num
    linarith
  have hcy : (mkArc 0 0 1 30 120).cy = 0 := rfl
  have hR1 : (mkArc 0 0 1 30 120).R = 1 := rfl
  have hr90 : radians 90 = Real.pi / 2 := by unfold radians; ring
  have hs90 : Real.sin (radians 90) = 1 := by
    rw [hr90]
    exact Real.sin_pi_div_two
  rw [hymax, hcy, hR1, hs90]
  have hs3 : Real.sqrt 3 < 2 := by
    nlinarith [Real.sq_sqrt (show (0:ℝ) ≤ 3 by norm_num), Real.sqrt_nonneg 3]
  linarith

end Dxfgeom
